import Mathlib

/-!
Flectra: the `website_links` share-page widget and the `pos_hr` tour

A verification development over two client-side files of the repository:

* `addons/website_links/static/src/js/website_links_menu.js`
  (`WebsiteLinksMenu.start`),
* `addons/pos_hr/static/tests/tours/PosHrTour.js`
  (the module body of `point_of_sale.tour.PosHr`).

Strings are sequences of Unicode scalar values (`String`, `List Char`):
`window.location.href` is a `USVString`. ECMA-262 states the URI handling
functions on UTF-16 code units; `EncodeUnits` follows that text, its `URIError`
branch for unpaired surrogates included, and `EncodeUnits_codeUnits` shows that
on the code units of a scalar-value string it agrees with the scalar-value
`Encode` that `encodeURIComponent` is built on.
-/

namespace Flectra

/-! ## ECMAScript URI handling functions (ECMA-262, "URI Handling Functions") -/

/-- The two ways a URI handling function can stop without a result: the
`URIError` of the standard, and exhaustion of the iteration budget that the
model gives to `Decode`. -/
inductive Failure where
  | URIError
  | outOfFuel
  deriving DecidableEq, Repr

/-- The ASCII word characters: letters, decimal digits and U+005F. -/
def asciiWordCharacters : List Char :=
  "ABCDEFGHIJKLMNOPQRSTUVWXYZabcdefghijklmnopqrstuvwxyz0123456789_".toList

/-- The set `alwaysUnescaped` of `Encode`: the ASCII word characters followed by
the nine marks `- . ! ~ * ' ( )` (U+0027 is written by its code). -/
def alwaysUnescaped : List Char :=
  asciiWordCharacters ++ "-.!~*".toList ++ [Char.ofNat 39] ++ "()".toList

/-- The UTF-8 transformation of a code point into its list of octets. -/
def utf8Octets (cp : Nat) : List Nat :=
  if cp < 0x80 then [cp]
  else if cp < 0x800 then [0xC0 + cp / 0x40, 0x80 + cp % 0x40]
  else if cp < 0x10000 then
    [0xE0 + cp / 0x1000, 0x80 + cp / 0x40 % 0x40, 0x80 + cp % 0x40]
  else
    [0xF0 + cp / 0x40000, 0x80 + cp / 0x1000 % 0x40, 0x80 + cp / 0x40 % 0x40,
      0x80 + cp % 0x40]

/-- The string representation of an octet as an uppercase hexadecimal number. -/
def hexUpper (octet : Nat) : List Char :=
  (Nat.toDigits 16 octet).map Char.toUpper

/-- The abstract operation `StringPad(S, maxLength, fillString, start)` for a
one-character fill string. -/
def StringPad (S : List Char) (maxLength : Nat) (fill : Char) : List Char :=
  List.replicate (maxLength - S.length) fill ++ S

/-- The escape `%XX` that `Encode` appends for one octet. -/
def escapeOctet (octet : Nat) : List Char :=
  '%' :: StringPad (hexUpper octet) 2 '0'

/-- The loop of the abstract operation `Encode(string, extraUnescaped)`: `R` is
the result built so far, the first argument the part of `string` from index
`k` on. -/
def Encode.loop (unescapedSet : List Char) : List Char → List Char → List Char
  | [], R => R
  | C :: rest, R =>
    if unescapedSet.contains C then
      Encode.loop unescapedSet rest (R ++ [C])
    else
      Encode.loop unescapedSet rest
        ((utf8Octets C.toNat).foldl (fun R octet => R ++ escapeOctet octet) R)

/-- The abstract operation `Encode(string, extraUnescaped)`. -/
def Encode (string : List Char) (extraUnescaped : List Char) : List Char :=
  Encode.loop (alwaysUnescaped ++ extraUnescaped) string []

/-- The built-in `encodeURIComponent(uriComponent)`: `Encode` with an empty
`extraUnescaped`. -/
def encodeURIComponent (uriComponent : String) : String :=
  String.mk (Encode uriComponent.toList [])

/-! ### `Encode` on UTF-16 code units

ECMA-262 states `Encode` on the code units of a string. The definitions below
follow that text; `EncodeUnits_codeUnits` shows that on the code units of a
scalar-value string it never throws and agrees with `Encode` above. -/

/-- The abstract operation `UTF16EncodeCodePoint`. -/
def UTF16EncodeCodePoint (cp : Nat) : List Nat :=
  if cp ≤ 0xFFFF then [cp]
  else [(cp - 0x10000) / 0x400 + 0xD800, (cp - 0x10000) % 0x400 + 0xDC00]

/-- The UTF-16 code units of a scalar-value string. -/
def codeUnits (s : List Char) : List Nat :=
  s.flatMap fun c => UTF16EncodeCodePoint c.toNat

/-- Whether a code unit is a leading surrogate. -/
def isLeadingSurrogate (u : Nat) : Bool := 0xD800 ≤ u && u ≤ 0xDBFF

/-- Whether a code unit is a trailing surrogate. -/
def isTrailingSurrogate (u : Nat) : Bool := 0xDC00 ≤ u && u ≤ 0xDFFF

/-- The abstract operation `UTF16SurrogatePairToCodePoint`. -/
def UTF16SurrogatePairToCodePoint (lead trail : Nat) : Nat :=
  (lead - 0xD800) * 0x400 + (trail - 0xDC00) + 0x10000

/-- The record that `CodePointAt` returns. -/
structure CodePointRecord where
  CodePoint : Nat
  CodeUnitCount : Nat
  IsUnpairedSurrogate : Bool
  deriving DecidableEq, Repr

/-- The abstract operation `CodePointAt(string, position)`, given the code unit
at `position` and the code units after it. -/
def CodePointAt (first : Nat) (after : List Nat) : CodePointRecord :=
  if !isLeadingSurrogate first && !isTrailingSurrogate first then
    { CodePoint := first, CodeUnitCount := 1, IsUnpairedSurrogate := false }
  else
    match isTrailingSurrogate first, after with
    | true, _ => { CodePoint := first, CodeUnitCount := 1, IsUnpairedSurrogate := true }
    | false, [] => { CodePoint := first, CodeUnitCount := 1, IsUnpairedSurrogate := true }
    | false, second :: _ =>
      if !isTrailingSurrogate second then
        { CodePoint := first, CodeUnitCount := 1, IsUnpairedSurrogate := true }
      else
        { CodePoint := UTF16SurrogatePairToCodePoint first second, CodeUnitCount := 2,
          IsUnpairedSurrogate := false }

/-- The loop of `Encode` on code units: `R` is the result so far, the list the
code units from index `k` on; `k` advances by the `CodeUnitCount` of the code
point read (`CodePointAt` reports 2 only when a second code unit is there). -/
def EncodeUnits.loop (unescapedSet : List Nat) :
    List Nat → List Nat → Except Failure (List Nat)
  | [], R => .ok R
  | C :: rest, R =>
    if unescapedSet.contains C then
      EncodeUnits.loop unescapedSet rest (R ++ [C])
    else
      let cp := CodePointAt C rest
      if cp.IsUnpairedSurrogate then .error .URIError
      else
        let R2 := (utf8Octets cp.CodePoint).foldl
          (fun R octet => R ++ codeUnits (escapeOctet octet)) R
        if cp.CodeUnitCount = 2 then
          match rest with
          | [] => .ok R2
          | _ :: rest2 => EncodeUnits.loop unescapedSet rest2 R2
        else EncodeUnits.loop unescapedSet rest R2

/-- The abstract operation `Encode(string, extraUnescaped)` on code units. -/
def EncodeUnits (string : List Nat) (extraUnescaped : List Char) :
    Except Failure (List Nat) :=
  EncodeUnits.loop (codeUnits (alwaysUnescaped ++ extraUnescaped)) string []

/-- The value of one hexadecimal digit, in either case. -/
def hexDigitValue (c : Char) : Option Nat :=
  if 48 ≤ c.toNat ∧ c.toNat ≤ 57 then some (c.toNat - 48)
  else if 65 ≤ c.toNat ∧ c.toNat ≤ 70 then some (c.toNat - 55)
  else if 97 ≤ c.toNat ∧ c.toNat ≤ 102 then some (c.toNat - 87)
  else none

/-- The abstract operation `ParseHexOctet` on the two characters after a `%`. -/
def ParseHexOctet (hi lo : Char) : Option Nat :=
  match hexDigitValue hi, hexDigitValue lo with
  | some h, some l => some (16 * h + l)
  | _, _ => none

/-- The number of leading 1 bits of an octet (every count above 4 is reported
as 5: `Decode` only asks whether it exceeds 4). -/
def leadingOnes (B : Nat) : Nat :=
  if B < 0x80 then 0
  else if B < 0xC0 then 1
  else if B < 0xE0 then 2
  else if B < 0xF0 then 3
  else if B < 0xF8 then 4
  else 5

/-- The inner loop of `Decode`: reads `j` further escapes `%XX` and returns
their octets with the rest of the string, or nothing when the string ends or
an escape is malformed. -/
def readContinuation : Nat → List Char → Option (List Nat × List Char)
  | 0, s => some ([], s)
  | j + 1, '%' :: hi :: lo :: s =>
    match ParseHexOctet hi lo with
    | none => none
    | some b =>
      match readContinuation j s with
      | none => none
      | some (bs, s') => some (b :: bs, s')
  | _ + 1, _ => none

/-- Whether an octet is a UTF-8 continuation octet `10xxxxxx`. -/
def isContinuation (b : Nat) : Bool := 0x80 ≤ b && b < 0xC0

/-- The inverse UTF-8 transformation of a multi-octet sequence: the code point
when the octets are a valid UTF-8 encoding (shortest form, no surrogate, at
most U+10FFFF), nothing otherwise. -/
def utf8CodePoint : List Nat → Option Nat
  | [b0, b1] =>
    let v := (b0 - 0xC0) * 0x40 + (b1 - 0x80)
    if isContinuation b1 && 0x80 ≤ v then some v else none
  | [b0, b1, b2] =>
    let v := (b0 - 0xE0) * 0x1000 + (b1 - 0x80) * 0x40 + (b2 - 0x80)
    if isContinuation b1 && isContinuation b2 && 0x800 ≤ v
        && !(0xD800 ≤ v && v ≤ 0xDFFF) then some v else none
  | [b0, b1, b2, b3] =>
    let v := (b0 - 0xF0) * 0x40000 + (b1 - 0x80) * 0x1000 + (b2 - 0x80) * 0x40
      + (b3 - 0x80)
    if isContinuation b1 && isContinuation b2 && isContinuation b3
        && 0x10000 ≤ v && v ≤ 0x10FFFF then some v else none
  | _ => none

/-- The loop of the abstract operation `Decode(string, preserveEscapeSet)` with
an empty `preserveEscapeSet`, on scalar values: a character other than `%` is
copied, and the code point of an escape sequence is appended as one character
(in code units, its `UTF16EncodeCodePoint`). One unit of fuel is spent per
iteration. -/
def Decode.loop : Nat → List Char → List Char → Except Failure (List Char)
  | _, [], R => .ok R
  | 0, _ :: _, _ => .error .outOfFuel
  | fuel + 1, C :: rest, R =>
    if C = '%' then
      match rest with
      | hi :: lo :: rest2 =>
        match ParseHexOctet hi lo with
        | none => .error .URIError
        | some B =>
          let n := leadingOnes B
          if n = 0 then Decode.loop fuel rest2 (R ++ [Char.ofNat B])
          else if n = 1 ∨ n > 4 then .error .URIError
          else
            match readContinuation (n - 1) rest2 with
            | none => .error .URIError
            | some (more, rest3) =>
              match utf8CodePoint (B :: more) with
              | none => .error .URIError
              | some V => Decode.loop fuel rest3 (R ++ [Char.ofNat V])
      | _ => .error .URIError
    else Decode.loop fuel rest (R ++ [C])

/-- The abstract operation `Decode` with an empty `preserveEscapeSet`: the loop
runs at most once per character of `string`. -/
def Decode (string : List Char) : Except Failure (List Char) :=
  Decode.loop string.length string []

/-- The built-in `decodeURIComponent(encodedURIComponent)`. -/
def decodeURIComponent (encodedURIComponent : String) : Except Failure String :=
  (Decode encodedURIComponent.toList).map String.mk

/-! ## The share-page widget (`website_links_menu.js`) -/

/-- The attribute list of a DOM element after `setAttribute(name, value)`: an
attribute of that name gets the new value in place, otherwise the attribute is
appended. -/
def setAttribute : List (String × String) → String → String → List (String × String)
  | [], name, value => [(name, value)]
  | (k, v) :: rest, name, value =>
    if k = name then (k, value) :: rest else (k, v) :: setAttribute rest name value

/-- The value of the attribute `name` in an attribute list, if present. -/
def getAttribute : List (String × String) → String → Option String
  | [], _ => none
  | (k, v) :: rest, name => if k = name then some v else getAttribute rest name

/-- A DOM element: its attributes, and everything else it holds (children,
properties, listeners) as one component of an arbitrary type. -/
structure Element (ε : Type) where
  attributes : List (String × String)
  content : ε

/-- Modelled from the spec: the setter `$el.attr(name, value)` of the bundled
jQuery library (not under src/), which overwrites the named attribute of the
element and nothing else. -/
def Element.attr {ε : Type} (el : Element ε) (name value : String) : Element ε :=
  { el with attributes := setAttribute el.attributes name value }

/-- A widget instance, the receiver `this` of `start`: its root element
`this.$el` and its remaining fields. -/
structure Widget (ε σ : Type) where
  el : Element ε
  fields : σ

/-- What one activation of `start` leaves behind: the calls it made to the base
`start` (receiver and arguments of each, in order), the widget afterwards, and
the value returned. -/
structure Activation (ε σ α ρ : Type) where
  superCalls : List (Widget ε σ × α)
  widget : Widget ε σ
  returned : ρ

/-- The method `start` of `WebsiteLinksMenu`
(an extension of `publicWidget.Widget`). The base method
`this._super` is a parameter: it receives the receiver and the arguments and
gives back the receiver as it leaves it and its return value.
`location_href` is `window.location.href`. -/
def WebsiteLinksMenu.start {ε σ α ρ : Type}
    (_super : Widget ε σ → α → Widget ε σ × ρ) (location_href : String)
    (this : Widget ε σ) (arguments : α) : Activation ε σ α ρ :=
  -- this.$el.attr('href', '/r?u=' + encodeURIComponent(window.location.href));
  let this1 : Widget ε σ :=
    { this with el := this.el.attr "href" ("/r?u=" ++ encodeURIComponent location_href) }
  -- return this._super.apply(this, arguments);
  let r := _super this1 arguments
  { superCalls := [(this1, arguments)], widget := r.1, returned := r.2 }

/-! ## The tour script (`PosHrTour.js`) -/

/-- The tour-method objects the script imports. -/
inductive Component where
  | PosHr
  | ProductScreen
  | ErrorPopup
  | NumberPopup
  | SelectionPopup
  deriving DecidableEq, Repr

/-- The two groups of methods of a tour-method object: `check` and `do`. -/
inductive Category where
  | check
  | do_
  deriving DecidableEq, Repr

/-- A step: the component it addresses, the group and name of the method, and
the literal arguments. -/
structure Step where
  component : Component
  category : Category
  method : String
  args : List String
  deriving DecidableEq, Repr

/-- The statements of a tour module body. -/
inductive Statement where
  /-- The call `startSteps()`. -/
  | startSteps
  /-- A registration call `Component.category.method(args)`. -/
  | call (step : Step)
  /-- The call `Tour.register(name, options, getSteps())` with the options
  `test` and `url`. -/
  | tourRegister (name : String) (test : Bool) (url : String)
  deriving DecidableEq, Repr

/-- A registration call `component.check.method(args)`. -/
def Component.check (c : Component) (method : String) (args : List String) : Statement :=
  .call ⟨c, .check, method, args⟩

/-- A registration call `component.do.method(args)`. -/
def Component.do_ (c : Component) (method : String) (args : List String) : Statement :=
  .call ⟨c, .do_, method, args⟩

open Component in
/-- The module body of `point_of_sale.tour.PosHr`, lines 12 to 52. -/
def PosHrTour : List Statement :=
  [ Statement.startSteps,
    PosHr.check "loginScreenIsShown" [],
    PosHr.do_ "clickLoginButton" [],
    SelectionPopup.check "isShown" [],
    SelectionPopup.check "hasSelectionItem" ["Pos Employee1"],
    SelectionPopup.check "hasSelectionItem" ["Pos Employee2"],
    SelectionPopup.check "hasSelectionItem" ["Mitchell Admin"],
    SelectionPopup.do_ "clickItem" ["Pos Employee1"],
    NumberPopup.check "isShown" [],
    NumberPopup.do_ "pressNumpad" ["2 5"],
    NumberPopup.check "inputShownIs" ["••"],
    NumberPopup.do_ "pressNumpad" ["8 1"],
    NumberPopup.check "inputShownIs" ["••••"],
    NumberPopup.do_ "clickConfirm" [],
    ErrorPopup.check "isShown" [],
    ErrorPopup.do_ "clickConfirm" [],
    PosHr.do_ "clickLoginButton" [],
    SelectionPopup.do_ "clickItem" ["Pos Employee1"],
    NumberPopup.check "isShown" [],
    NumberPopup.do_ "pressNumpad" ["2 5"],
    NumberPopup.check "inputShownIs" ["••"],
    NumberPopup.do_ "pressNumpad" ["8 0"],
    NumberPopup.check "inputShownIs" ["••••"],
    NumberPopup.do_ "clickConfirm" [],
    ProductScreen.check "isShown" [],
    PosHr.check "cashierNameIs" ["Pos Employee1"],
    PosHr.do_ "clickCashierName" [],
    SelectionPopup.do_ "clickItem" ["Mitchell Admin"],
    PosHr.check "cashierNameIs" ["Mitchell Admin"],
    PosHr.do_ "clickLockButton" [],
    PosHr.do_ "clickLoginButton" [],
    SelectionPopup.do_ "clickItem" ["Pos Employee2"],
    NumberPopup.do_ "pressNumpad" ["1 2"],
    NumberPopup.check "inputShownIs" ["••"],
    NumberPopup.do_ "pressNumpad" ["3 4"],
    NumberPopup.check "inputShownIs" ["••••"],
    NumberPopup.do_ "clickConfirm" [],
    ProductScreen.check "isShown" [],
    Statement.tourRegister "PosHrTour" true "/pos/ui" ]

/-- The steps of the registration calls of a module body, in source order. -/
def registrationCalls : List Statement → List Step
  | [] => []
  | .call step :: rest => step :: registrationCalls rest
  | _ :: rest => registrationCalls rest

/-- The state of the step sequence builder: the sequence under construction. -/
structure Builder where
  steps : List Step
  deriving DecidableEq, Repr

/-- Modelled from the spec: `startSteps` of `point_of_sale.tour.utils` (not
under src/), which "resets/initializes an empty sequence" and "discards any
prior in-progress sequence". -/
def startSteps (_ : Builder) : Builder := { steps := [] }

/-- Modelled from the spec: a registration call of the tour-method modules (not
under src/): "each call appends exactly one Step to the current sequence, in
call order". -/
def register (b : Builder) (step : Step) : Builder := { steps := b.steps ++ [step] }

/-- Modelled from the spec: `getSteps` of `point_of_sale.tour.utils` (not under
src/), which "returns the finalized ordered sequence"; the second component is
the builder state after the call. -/
def getSteps (b : Builder) : List Step × Builder := (b.steps, b)

/-- A scenario as registered with the runner. -/
structure Tour where
  name : String
  test : Bool
  url : String
  steps : List Step
  deriving DecidableEq, Repr

/-- The state a tour module body acts on: the builder of
`point_of_sale.tour.utils` and the scenarios registered with `web_tour.tour`. -/
structure TourState where
  builder : Builder
  tours : List Tour
  deriving DecidableEq, Repr

/-- Modelled from the spec: `Tour.register` of `web_tour.tour` (not under
src/): "registration of the finished sequence with an external runner, tagged
with scenario metadata". -/
def Tour.register (tours : List Tour) (name : String) (test : Bool) (url : String)
    (steps : List Step) : List Tour :=
  tours ++ [{ name := name, test := test, url := url, steps := steps }]

/-- The effect of one statement. -/
def exec (s : TourState) : Statement → TourState
  | .startSteps => { s with builder := startSteps s.builder }
  | .call step => { s with builder := register s.builder step }
  | .tourRegister name test url =>
    let r := getSteps s.builder
    { builder := r.2, tours := Tour.register s.tours name test url r.1 }

/-- The effect of a module body: its statements in order. -/
def run (script : List Statement) (s : TourState) : TourState :=
  script.foldl exec s

/-- The pieces of a string between the occurrences of a separator character
(`String.prototype.split` with a one-character separator). -/
def splitOn (sep : Char) : List Char → List (List Char)
  | [] => [[]]
  | c :: rest =>
    if c = sep then [] :: splitOn sep rest
    else
      match splitOn sep rest with
      | [] => [[c]]
      | piece :: pieces => (c :: piece) :: pieces

/-- The number of keys in an argument of `pressNumpad`: the keys are separated
by single spaces. -/
def keyCount (keys : String) : Nat := (splitOn ' ' keys.toList).length

/-- The number of digits pressed through `NumberPopup.do.pressNumpad` in a run
of steps since the last `SelectionPopup.do.clickItem` in it. -/
def digitsPressed (before : List Step) : Nat :=
  before.foldl
    (fun n step =>
      if step.component = .SelectionPopup ∧ step.category = .do_
          ∧ step.method = "clickItem" then 0
      else if step.component = .NumberPopup ∧ step.category = .do_
          ∧ step.method = "pressNumpad" then
        n + (step.args.map keyCount).sum
      else n)
    0

/-- The expected string of a step `NumberPopup.check.inputShownIs(expected)`. -/
def inputShownIs? (step : Step) : Option String :=
  if step.component = .NumberPopup ∧ step.category = .check
      ∧ step.method = "inputShownIs" then step.args.head? else none

/-! ## The link target in the words of the specification -/

/-- Whether a character is one of `A-Z a-z 0-9 - _ . ! ~ * ' ( )`. -/
def isUnescaped (c : Char) : Bool :=
  ('A'.toNat ≤ c.toNat && c.toNat ≤ 'Z'.toNat)
    || ('a'.toNat ≤ c.toNat && c.toNat ≤ 'z'.toNat)
    || ('0'.toNat ≤ c.toNat && c.toNat ≤ '9'.toNat)
    || ['-', '_', '.', '!', '~', '*', Char.ofNat 39, '(', ')'].contains c

/-- The uppercase hexadecimal digit of a value below 16. -/
def hexChar (n : Nat) : Char := "0123456789ABCDEF".toList.getD n '0'

/-- The escape `%XX` of a byte: a percent sign and two uppercase hexadecimal
digits. -/
def percentEscape (byte : UInt8) : List Char :=
  ['%', hexChar (byte.toNat / 16), hexChar (byte.toNat % 16)]

/-- The percent-encoding of a string: every character other than
`A-Z a-z 0-9 - _ . ! ~ * ' ( )` is replaced by the `%XX` escapes of its UTF-8
bytes, the bytes being those of the library encoder `String.utf8EncodeChar`. -/
def percentEncoding (U : String) : String :=
  String.mk (U.toList.flatMap fun c =>
    if isUnescaped c then [c] else (String.utf8EncodeChar c).flatMap percentEscape)

/-- A base `start` that leaves the root element of its receiver as it is. -/
def PreservesElement {ε σ α ρ : Type} (_super : Widget ε σ → α → Widget ε σ × ρ) : Prop :=
  ∀ (w : Widget ε σ) (a : α), (_super w a).1.el = w.el

/-- The delimiter characters of a URL query. -/
def delimiters : List Char := ['&', '=', '?', '#', '/', '+', ' ']

/-- The query of a URL reference: what stands after the first `?`, up to the
first `#` after it. -/
def queryOf (url : List Char) : List Char :=
  ((url.dropWhile fun c => c != '?').drop 1).takeWhile fun c => c != '#'

/-- The query parameters of a URL reference: the non-empty pieces of the query
between `&`, each split into name and value at its first `=`. -/
def queryParameters (url : String) : List (String × String) :=
  ((splitOn '&' (queryOf url.toList)).filter fun piece => !piece.isEmpty).map fun piece =>
    (String.mk (piece.takeWhile fun c => c != '='),
      String.mk ((piece.dropWhile fun c => c != '=').drop 1))

/-! ## The tour: lemmas -/

theorem run_nil (s : TourState) : run [] s = s := rfl

theorem run_cons (st : Statement) (script : List Statement) (s : TourState) :
    run (st :: script) s = run script (exec s st) := rfl

theorem run_append (p q : List Statement) (s : TourState) :
    run (p ++ q) s = run q (run p s) := by
  simp [run, List.foldl_append]

theorem foldl_register (calls : List Step) (b : Builder) :
    calls.foldl register b = { steps := b.steps ++ calls } := by
  induction calls generalizing b with
  | nil => simp
  | cons c cs ih => simp [ih, register]

theorem run_calls (calls : List Step) (s : TourState) :
    run (calls.map Statement.call) s
      = { s with builder := { steps := s.builder.steps ++ calls } } := by
  induction calls generalizing s with
  | nil => simp [run]
  | cons c cs ih => simp [run_cons, ih, exec, register]

theorem run_scenario (prior : TourState) (calls : List Step) (name : String)
    (test : Bool) (url : String) :
    run (Statement.startSteps :: calls.map Statement.call
        ++ [Statement.tourRegister name test url]) prior
      = { builder := { steps := calls },
          tours := prior.tours ++ [{ name := name, test := test, url := url, steps := calls }] } := by
  rw [List.cons_append, run_cons, run_append, run_calls]
  simp [run, exec, startSteps, getSteps, Tour.register]

theorem PosHrTour_shape :
    PosHrTour = Statement.startSteps :: (registrationCalls PosHrTour).map Statement.call
      ++ [Statement.tourRegister "PosHrTour" true "/pos/ui"] := by
  decide

theorem run_PosHrTour (prior : TourState) :
    run PosHrTour prior
      = { builder := { steps := registrationCalls PosHrTour },
          tours := prior.tours ++ [{ name := "PosHrTour", test := true, url := "/pos/ui",
                                     steps := registrationCalls PosHrTour }] } := by
  rw [PosHrTour_shape, run_scenario, ← PosHrTour_shape]

/-! ## The tour: the step sequence handed to the runner -/

/-- C2: the step sequence that `PosHrTour` hands to `Tour.register` through
`getSteps()` is, whatever the state before the module body runs, exactly the
sequence of its registration calls in source order: 37 steps, the step at
position `i` being the call that is statement `i + 1` of the body. The same
holds for every scenario: a body `startSteps(); calls; Tour.register(...,
getSteps())` hands over exactly `calls`, so registering `X`, `Y`, `Z` gives
`[X, Y, Z]`. -/
theorem PosHrTour_hands_over_its_calls :
    (∀ prior : TourState,
      (run PosHrTour prior).tours
        = prior.tours ++ [{ name := "PosHrTour", test := true, url := "/pos/ui",
                            steps := registrationCalls PosHrTour }])
    ∧ (registrationCalls PosHrTour).length = 37
    ∧ (∀ i : Fin 37,
        PosHrTour[i.val + 1]? = ((registrationCalls PosHrTour)[i.val]?).map Statement.call)
    ∧ (∀ (prior : TourState) (calls : List Step) (name : String) (test : Bool) (url : String),
        (run (Statement.startSteps :: calls.map Statement.call
            ++ [Statement.tourRegister name test url]) prior).tours
          = prior.tours ++ [{ name := name, test := test, url := url, steps := calls }])
    ∧ (∀ (prior : TourState) (X Y Z : Step),
        (getSteps (run [Statement.startSteps, Statement.call X, Statement.call Y,
            Statement.call Z] prior).builder).1 = [X, Y, Z]) := by
  refine ⟨fun prior => by rw [run_PosHrTour], by decide, by decide, ?_, ?_⟩
  · intro prior calls name test url
    rw [run_scenario]
  · intro prior X Y Z
    simp [run, exec, startSteps, register, getSteps]

/-- C8: `getSteps()` returns the sequence and leaves the builder as it was, so
two calls in a row return the same sequence, and a statement
`Tour.register(..., getSteps())` leaves the builder as it was; after the module
body of `PosHrTour` a second `getSteps()` returns the same 37 steps that were
handed to `Tour.register`. -/
theorem getSteps_twice_same :
    (∀ b : Builder,
      (getSteps (getSteps b).2).1 = (getSteps b).1 ∧ (getSteps b).2 = b)
    ∧ (∀ (s : TourState) (name : String) (test : Bool) (url : String),
        (exec s (Statement.tourRegister name test url)).builder = s.builder)
    ∧ (∀ prior : TourState,
        (run PosHrTour prior).tours.getLast?.map Tour.steps
            = some (getSteps (run PosHrTour prior).builder).1
        ∧ (getSteps (run PosHrTour prior).builder).1 = registrationCalls PosHrTour
        ∧ (getSteps (run PosHrTour prior).builder).1.length = 37) := by
  refine ⟨fun b => ⟨rfl, rfl⟩, fun s name test url => rfl, fun prior => ?_⟩
  rw [run_PosHrTour]
  refine ⟨by simp [getSteps], rfl, ?_⟩
  show (registrationCalls PosHrTour).length = 37
  decide

/-- C10: `startSteps()` empties the builder whatever it held: the sequence
`getSteps()` returns after `startSteps()` and some registration calls is exactly
those calls, and the sequence `PosHrTour` registers is the same from any two
prior states. -/
theorem startSteps_discards_prior :
    (∀ b : Builder, (getSteps (startSteps b)).1 = [])
    ∧ (∀ (b : Builder) (calls : List Step),
        (getSteps (calls.foldl register (startSteps b))).1 = calls)
    ∧ (∀ (leftover : List Step) (tours : List Tour),
        (run PosHrTour { builder := { steps := leftover }, tours := tours }).tours
          = tours ++ [{ name := "PosHrTour", test := true, url := "/pos/ui",
                        steps := registrationCalls PosHrTour }])
    ∧ (∀ prior prior2 : TourState,
        (run PosHrTour prior).builder = (run PosHrTour prior2).builder) := by
  refine ⟨fun b => rfl, fun b calls => ?_, fun leftover tours => ?_, fun p q => ?_⟩
  · rw [foldl_register]
    simp [getSteps, startSteps]
  · rw [run_PosHrTour]
  · rw [run_PosHrTour, run_PosHrTour]

/-- C4: every step `NumberPopup.check.inputShownIs(expected)` of `PosHrTour`
expects a string made only of the mask character U+2022 whose length is the
number of keys pressed through `NumberPopup.do.pressNumpad` since the preceding
`SelectionPopup.do.clickItem`. -/
theorem inputShownIs_is_mask_of_digits_pressed (i : Nat) (expected : String)
    (h : ((registrationCalls PosHrTour)[i]?).bind inputShownIs? = some expected) :
    (∀ c ∈ expected.toList, c = '•')
      ∧ expected.length = digitsPressed ((registrationCalls PosHrTour).take i) := by
  have hi : i < 37 := by
    by_contra hge
    have hlen : (registrationCalls PosHrTour).length ≤ i := by
      have : (registrationCalls PosHrTour).length = 37 := by decide
      omega
    rw [List.getElem?_eq_none hlen] at h
    simp at h
  have key : ∀ j : Fin 37,
      ∀ e ∈ ((registrationCalls PosHrTour)[j.val]?).bind inputShownIs?,
        (e.toList.all fun c => c = '•') = true
          ∧ e.length = digitsPressed ((registrationCalls PosHrTour).take j.val) := by
    decide
  have := key ⟨i, hi⟩ expected (by simpa using h)
  refine ⟨fun c hc => ?_, this.2⟩
  have hall := this.1
  rw [List.all_eq_true] at hall
  simpa using hall c hc

theorem inputShownIs_is_mask_of_digits_pressed_witness :
    ((registrationCalls PosHrTour)[11]?).bind inputShownIs? = some "••••"
      ∧ ((∀ c ∈ "••••".toList, c = '•')
        ∧ "••••".length = digitsPressed ((registrationCalls PosHrTour).take 11)) :=
  ⟨by decide, inputShownIs_is_mask_of_digits_pressed 11 "••••" (by decide)⟩

/-- C9: the wrong-code attempt of `PosHrTour` (lines 21 to 28, the calls at
positions 7 to 14) is exactly the eight steps of the negative scenario, in that
order; and every step `ErrorPopup.check.isShown` of the tour is directly
followed by `ErrorPopup.do.clickConfirm`, so that any later
`PosHr.do.clickLoginButton` comes after the dismissal. -/
theorem error_path_is_ordinary_steps :
    ((registrationCalls PosHrTour).drop 7).take 8
        = [ { component := .NumberPopup, category := .check, method := "isShown", args := [] },
            { component := .NumberPopup, category := .do_, method := "pressNumpad", args := ["2 5"] },
            { component := .NumberPopup, category := .check, method := "inputShownIs", args := ["••"] },
            { component := .NumberPopup, category := .do_, method := "pressNumpad", args := ["8 1"] },
            { component := .NumberPopup, category := .check, method := "inputShownIs", args := ["••••"] },
            { component := .NumberPopup, category := .do_, method := "clickConfirm", args := [] },
            { component := .ErrorPopup, category := .check, method := "isShown", args := [] },
            { component := .ErrorPopup, category := .do_, method := "clickConfirm", args := [] } ]
    ∧ ∀ i : Nat,
        (registrationCalls PosHrTour)[i]?
            = some { component := .ErrorPopup, category := .check, method := "isShown", args := [] } →
          (registrationCalls PosHrTour)[i + 1]?
              = some { component := .ErrorPopup, category := .do_, method := "clickConfirm", args := [] }
            ∧ ∀ j : Nat, i < j →
                (registrationCalls PosHrTour)[j]?
                    = some { component := .PosHr, category := .do_, method := "clickLoginButton",
                             args := [] } →
                  i + 1 < j := by
  refine ⟨by decide, fun i h => ?_⟩
  have hi : i < 37 := by
    by_contra hge
    have hlen : (registrationCalls PosHrTour).length ≤ i := by
      have : (registrationCalls PosHrTour).length = 37 := by decide
      omega
    rw [List.getElem?_eq_none hlen] at h
    simp at h
  have key : ∀ k : Fin 37,
      (registrationCalls PosHrTour)[k.val]?
          = some { component := .ErrorPopup, category := .check, method := "isShown", args := [] } →
        (registrationCalls PosHrTour)[k.val + 1]?
            = some { component := .ErrorPopup, category := .do_, method := "clickConfirm", args := [] } := by
    decide
  have hnext := key ⟨i, hi⟩ h
  refine ⟨hnext, fun j hij hj => ?_⟩
  by_contra hle
  have hji : j = i + 1 := by omega
  subst hji
  rw [hnext] at hj
  simp at hj

theorem error_path_is_ordinary_steps_witness :
    (registrationCalls PosHrTour)[13]?
        = some { component := .ErrorPopup, category := .check, method := "isShown", args := [] }
      ∧ (registrationCalls PosHrTour)[13 + 1]?
        = some { component := .ErrorPopup, category := .do_, method := "clickConfirm", args := [] }
      ∧ 13 + 1 < 15 :=
  ⟨by decide, (error_path_is_ordinary_steps.2 13 (by decide)).1,
    (error_path_is_ordinary_steps.2 13 (by decide)).2 15 (by decide) (by decide)⟩

/-! ## Percent-encoding: the built-in against the specification -/

theorem foldl_escapeOctet (octets : List Nat) (R : List Char) :
    octets.foldl (fun R octet => R ++ escapeOctet octet) R
      = R ++ octets.flatMap escapeOctet := by
  induction octets generalizing R with
  | nil => simp
  | cons o os ih => simp [ih]

theorem Encode_loop_eq (unescapedSet string R : List Char) :
    Encode.loop unescapedSet string R
      = R ++ string.flatMap fun C =>
          if unescapedSet.contains C then [C]
          else (utf8Octets C.toNat).flatMap escapeOctet := by
  induction string generalizing R with
  | nil => simp [Encode.loop]
  | cons C rest ih =>
    by_cases h : C ∈ unescapedSet
    · simp [Encode.loop, h, ih]
    · simp [Encode.loop, h, ih, foldl_escapeOctet]

theorem toNat_lt_of_mem_alwaysUnescaped :
    ∀ x ∈ alwaysUnescaped, x.toNat < 128 := by
  decide

set_option maxRecDepth 100000 in
theorem contains_alwaysUnescaped_ascii :
    ∀ n : Fin 128, alwaysUnescaped.contains (Char.ofNat n.val) = isUnescaped (Char.ofNat n.val) := by
  decide

theorem contains_alwaysUnescaped (c : Char) :
    alwaysUnescaped.contains c = isUnescaped c := by
  by_cases h : c.toNat < 128
  · have := contains_alwaysUnescaped_ascii ⟨c.toNat, h⟩
    simpa using this
  · have h1 : alwaysUnescaped.contains c = false := by
      rw [Bool.eq_false_iff]
      intro hc
      exact h (toNat_lt_of_mem_alwaysUnescaped c (by simpa using hc))
    have h2 : isUnescaped c = false := by
      have hm : ∀ x ∈ ['-', '_', '.', '!', '~', '*', Char.ofNat 39, '(', ')'], x.toNat < 128 := by
        decide
      have hn : ['-', '_', '.', '!', '~', '*', Char.ofNat 39, '(', ')'].contains c = false := by
        rw [Bool.eq_false_iff]
        intro hc
        exact h (hm c (by simpa using hc))
      have e1 : 'Z'.toNat = 90 := rfl
      have e2 : 'z'.toNat = 122 := rfl
      have e3 : '9'.toNat = 57 := rfl
      unfold isUnescaped
      rw [hn]
      simp only [e1, e2, e3, Bool.or_false, Bool.or_eq_false_iff, Bool.and_eq_false_iff,
        decide_eq_false_iff_not]
      omega
    rw [h1, h2]

set_option maxRecDepth 100000 in
theorem escapeOctet_eq_hexChar :
    ∀ o : Fin 256, escapeOctet o.val = ['%', hexChar (o.val / 16), hexChar (o.val % 16)] := by
  decide

theorem char_toNat_lt (c : Char) : c.toNat < 0x110000 := by
  have := c.valid
  simp only [Char.toNat, UInt32.isValidChar, Nat.isValidChar] at *
  omega

theorem char_toNat_not_surrogate (c : Char) : ¬ (0xD800 ≤ c.toNat ∧ c.toNat ≤ 0xDFFF) := by
  have := c.valid
  simp only [Char.toNat, UInt32.isValidChar, Nat.isValidChar] at *
  omega

theorem utf8Octets_lt (c : Char) : ∀ o ∈ utf8Octets c.toNat, o < 256 := by
  have hv := char_toNat_lt c
  intro o ho
  unfold utf8Octets at ho
  split_ifs at ho <;> simp only [List.mem_cons, List.mem_singleton, List.not_mem_nil, or_false] at ho
    <;> omega

theorem and_mask_or_tag (k j a x : Nat) (hkj : k ≤ j) :
    (x &&& (2 ^ k - 1) ||| 2 ^ j * a) = 2 ^ j * a + x % 2 ^ k := by
  rw [Nat.and_pow_two_sub_one_eq_mod, Nat.lor_comm]
  symm
  apply Nat.mul_add_lt_is_or
  calc x % 2 ^ k < 2 ^ k := Nat.mod_lt _ (by positivity)
    _ ≤ 2 ^ j := Nat.pow_le_pow_right (by norm_num) hkj

theorem uint8_toNat_and (a b : UInt8) : (a &&& b).toNat = a.toNat &&& b.toNat :=
  BitVec.toNat_and _ _

theorem uint8_toNat_or (a b : UInt8) : (a ||| b).toNat = a.toNat ||| b.toNat :=
  BitVec.toNat_or _ _

theorem uint32_toUInt8_toNat (v : UInt32) : v.toUInt8.toNat = v.toNat % 256 := by
  show (BitVec.ofNat 8 v.toNat).toNat = _
  simp

theorem uint32_toNat_shiftRight (v : UInt32) (k : Nat) (hk : k < 32) :
    (v >>> UInt32.ofNat k).toNat = v.toNat / 2 ^ k := by
  show (v.toBitVec >>> (UInt32.mod (UInt32.ofNat k) 32).toBitVec).toNat = _
  have hmod : (UInt32.mod (UInt32.ofNat k) 32).toBitVec = BitVec.ofNat 32 k := by
    interval_cases k <;> rfl
  rw [hmod]
  show (v.toBitVec >>> (BitVec.ofNat 32 k).toNat).toNat = _
  rw [BitVec.toNat_ushiftRight, BitVec.toNat_ofNat, Nat.mod_eq_of_lt (by omega),
    Nat.shiftRight_eq_div_pow]
  rfl

theorem uint32_le_ofNat (v : UInt32) (n : Nat) (hn : n < 2 ^ 32) :
    v ≤ UInt32.ofNat n ↔ v.toNat ≤ n := by
  rw [UInt32.le_def, BitVec.le_def]
  show v.toNat ≤ (BitVec.ofNat 32 n).toNat ↔ _
  rw [BitVec.toNat_ofNat, Nat.mod_eq_of_lt hn]

/-- The octets of the UTF-8 transformation used by `Encode` are the bytes the
library encoder produces. -/
theorem utf8EncodeChar_toNat (c : Char) :
    (String.utf8EncodeChar c).map UInt8.toNat = utf8Octets c.toNat := by
  have hv := char_toNat_lt c
  have h1 : (c.val ≤ 0x7f) ↔ c.toNat ≤ 0x7f := uint32_le_ofNat c.val 0x7f (by norm_num)
  have h2 : (c.val ≤ 0x7ff) ↔ c.toNat ≤ 0x7ff := uint32_le_ofNat c.val 0x7ff (by norm_num)
  have h3 : (c.val ≤ 0xffff) ↔ c.toNat ≤ 0xffff := uint32_le_ofNat c.val 0xffff (by norm_num)
  have s6 : (c.val >>> 6).toNat = c.toNat / 64 := uint32_toNat_shiftRight c.val 6 (by norm_num)
  have s12 : (c.val >>> 12).toNat = c.toNat / 4096 :=
    uint32_toNat_shiftRight c.val 12 (by norm_num)
  have s18 : (c.val >>> 18).toNat = c.toNat / 262144 :=
    uint32_toNat_shiftRight c.val 18 (by norm_num)
  have e8 : ∀ n : Nat, (UInt8.toNat (OfNat.ofNat n)) = n % 256 := fun n => by
    show (BitVec.ofNat 8 n).toNat = _
    simp
  have low6 : ∀ x : Nat, (x &&& 0x3f ||| 0x80) = 0x80 + x % 0x40 := fun x =>
    and_mask_or_tag 6 7 1 x (by norm_num)
  have low5 : ∀ x : Nat, (x &&& 0x1f ||| 0xc0) = 0xc0 + x % 0x20 := fun x =>
    and_mask_or_tag 5 6 3 x (by norm_num)
  have low4 : ∀ x : Nat, (x &&& 0x0f ||| 0xe0) = 0xe0 + x % 0x10 := fun x =>
    and_mask_or_tag 4 5 7 x (by norm_num)
  have low3 : ∀ x : Nat, (x &&& 0x07 ||| 0xf0) = 0xf0 + x % 0x08 := fun x =>
    and_mask_or_tag 3 4 15 x (by norm_num)
  simp only [String.utf8EncodeChar, utf8Octets, h1, h2, h3]
  split_ifs <;> first | omega | skip
  all_goals
    simp only [List.map, uint8_toNat_or, uint8_toNat_and, uint32_toUInt8_toNat, s6, s12, s18, e8,
      show c.val.toNat = c.toNat from rfl, Nat.reduceMod, low6, low5, low4, low3,
      List.cons.injEq, and_true]
    omega

theorem flatMap_percentEscape (c : Char) :
    (String.utf8EncodeChar c).flatMap percentEscape
      = (utf8Octets c.toNat).flatMap escapeOctet := by
  rw [← utf8EncodeChar_toNat c, List.flatMap_map]
  apply List.flatMap_congr
  intro b _
  have hb : b.toNat < 256 := UInt8.toNat_lt b
  exact (escapeOctet_eq_hexChar ⟨b.toNat, hb⟩).symm

theorem encodeURIComponent_eq_percentEncoding (U : String) :
    encodeURIComponent U = percentEncoding U := by
  unfold encodeURIComponent percentEncoding Encode
  rw [Encode_loop_eq]
  congr 1
  simp only [List.nil_append, List.append_nil]
  apply List.flatMap_congr
  intro c _
  rw [contains_alwaysUnescaped, flatMap_percentEscape]

/-! ## `Encode` on code units agrees with `Encode` on scalar values -/

theorem codeUnits_append (a b : List Char) : codeUnits (a ++ b) = codeUnits a ++ codeUnits b := by
  simp [codeUnits]

theorem codeUnits_cons (c : Char) (cs : List Char) :
    codeUnits (c :: cs) = UTF16EncodeCodePoint c.toNat ++ codeUnits cs := by
  simp [codeUnits]

theorem foldl_escapeOctet_codeUnits (octets : List Nat) (R : List Char) :
    octets.foldl (fun R octet => R ++ codeUnits (escapeOctet octet)) (codeUnits R)
      = codeUnits (octets.foldl (fun R octet => R ++ escapeOctet octet) R) := by
  induction octets generalizing R with
  | nil => rfl
  | cons o os ih => simp only [List.foldl_cons, ← codeUnits_append, ih]

theorem contains_iff_mem {α : Type} [DecidableEq α] (l : List α) (a : α) :
    l.contains a = true ↔ a ∈ l := by
  simp

theorem toNat_injective (a b : Char) (h : a.toNat = b.toNat) : a = b := by
  rw [← Char.ofNat_toNat a, ← Char.ofNat_toNat b, h]

theorem mem_codeUnits_of_bmp (S : List Char) (hS : ∀ x ∈ S, x.toNat ≤ 0xFFFF) (u : Nat) :
    u ∈ codeUnits S ↔ ∃ x ∈ S, x.toNat = u := by
  simp only [codeUnits, List.mem_flatMap]
  constructor
  · rintro ⟨x, hx, hu⟩
    simp only [UTF16EncodeCodePoint, hS x hx, ↓reduceIte, List.mem_singleton] at hu
    exact ⟨x, hx, hu.symm⟩
  · rintro ⟨x, hx, rfl⟩
    exact ⟨x, hx, by simp [UTF16EncodeCodePoint, hS x hx]⟩

theorem contains_codeUnits_bmp (S : List Char) (hS : ∀ x ∈ S, x.toNat ≤ 0xFFFF) (c : Char) :
    (codeUnits S).contains c.toNat = S.contains c := by
  rw [Bool.eq_iff_iff]
  simp only [contains_iff_mem, mem_codeUnits_of_bmp S hS]
  constructor
  · rintro ⟨x, hx, hxc⟩
    rwa [← toNat_injective x c hxc]
  · intro hc
    exact ⟨c, hc, rfl⟩

/-- On the code units of a scalar-value string the code-unit `Encode` takes no
`URIError` branch and produces the code units of the scalar-value `Encode`. -/
theorem EncodeUnits_loop_codeUnits (S : List Char) (hS : ∀ x ∈ S, x.toNat ≤ 0xFFFF)
    (U R : List Char) :
    EncodeUnits.loop (codeUnits S) (codeUnits U) (codeUnits R)
      = .ok (codeUnits (Encode.loop S U R)) := by
  induction U generalizing R with
  | nil => rfl
  | cons c cs ih =>
    have hv := char_toNat_lt c
    have hs := char_toNat_not_surrogate c
    rw [codeUnits_cons]
    by_cases hb : c.toNat ≤ 0xFFFF
    · simp only [UTF16EncodeCodePoint, hb, ↓reduceIte, List.singleton_append]
      by_cases hc : S.contains c = true
      · have hu : (codeUnits S).contains c.toNat = true := by
          rw [contains_codeUnits_bmp S hS, hc]
        simp only [EncodeUnits.loop, Encode.loop, hu, hc, ↓reduceIte]
        have := ih (R ++ [c])
        rw [codeUnits_append] at this
        simpa [codeUnits, UTF16EncodeCodePoint, hb] using this
      · have hu : ¬ (codeUnits S).contains c.toNat = true := by
          rw [contains_codeUnits_bmp S hS]
          exact hc
        have hcp : CodePointAt c.toNat (codeUnits cs)
            = { CodePoint := c.toNat, CodeUnitCount := 1, IsUnpairedSurrogate := false } := by
          have h1 : isLeadingSurrogate c.toNat = false := by
            simp only [isLeadingSurrogate, Bool.and_eq_false_iff, decide_eq_false_iff_not]
            omega
          have h2 : isTrailingSurrogate c.toNat = false := by
            simp only [isTrailingSurrogate, Bool.and_eq_false_iff, decide_eq_false_iff_not]
            omega
          simp [CodePointAt, h1, h2]
        simp only [EncodeUnits.loop, Encode.loop, hu, hc, hcp, ↓reduceIte, Bool.false_eq_true,
          foldl_escapeOctet_codeUnits, OfNat.one_ne_ofNat]
        exact ih _
    · have hc : ¬ S.contains c = true := by
        intro hc
        exact hb (hS c (by simpa using hc))
      have hu : ¬ (codeUnits S).contains ((c.toNat - 0x10000) / 0x400 + 0xD800) = true := by
        intro hu
        rw [contains_iff_mem, mem_codeUnits_of_bmp S hS] at hu
        obtain ⟨x, _, hx⟩ := hu
        have := char_toNat_not_surrogate x
        omega
      have hcp : CodePointAt ((c.toNat - 0x10000) / 0x400 + 0xD800)
            (((c.toNat - 0x10000) % 0x400 + 0xDC00) :: codeUnits cs)
          = { CodePoint := c.toNat, CodeUnitCount := 2, IsUnpairedSurrogate := false } := by
        have h1 : isLeadingSurrogate ((c.toNat - 0x10000) / 0x400 + 0xD800) = true := by
          simp only [isLeadingSurrogate, Bool.and_eq_true, decide_eq_true_eq]
          omega
        have h2 : isTrailingSurrogate ((c.toNat - 0x10000) / 0x400 + 0xD800) = false := by
          simp only [isTrailingSurrogate, Bool.and_eq_false_iff, decide_eq_false_iff_not]
          omega
        have h3 : isTrailingSurrogate ((c.toNat - 0x10000) % 0x400 + 0xDC00) = true := by
          simp only [isTrailingSurrogate, Bool.and_eq_true, decide_eq_true_eq]
          omega
        have h4 : UTF16SurrogatePairToCodePoint ((c.toNat - 0x10000) / 0x400 + 0xD800)
            ((c.toNat - 0x10000) % 0x400 + 0xDC00) = c.toNat := by
          unfold UTF16SurrogatePairToCodePoint
          omega
        simp [CodePointAt, h1, h2, h3, h4]
      simp only [UTF16EncodeCodePoint, hb, ↓reduceIte, List.cons_append, List.nil_append,
        EncodeUnits.loop, Encode.loop, hu, hc, hcp, Bool.false_eq_true,
        foldl_escapeOctet_codeUnits]
      exact ih _

theorem EncodeUnits_codeUnits (U : List Char) :
    EncodeUnits (codeUnits U) [] = .ok (codeUnits (Encode U [])) := by
  have hS : ∀ x ∈ alwaysUnescaped ++ [], x.toNat ≤ 0xFFFF := by
    intro x hx
    have := toNat_lt_of_mem_alwaysUnescaped x (by simpa using hx)
    omega
  exact EncodeUnits_loop_codeUnits _ hS U []

/-! ## Decoding undoes encoding -/

theorem escapeOctet_eq (o : Nat) (ho : o < 256) :
    escapeOctet o = ['%', hexChar (o / 16), hexChar (o % 16)] :=
  escapeOctet_eq_hexChar ⟨o, ho⟩

set_option maxRecDepth 100000 in
theorem ParseHexOctet_hexChar_fin :
    ∀ o : Fin 256, ParseHexOctet (hexChar (o.val / 16)) (hexChar (o.val % 16)) = some o.val := by
  decide

theorem ParseHexOctet_hexChar (o : Nat) (ho : o < 256) :
    ParseHexOctet (hexChar (o / 16)) (hexChar (o % 16)) = some o :=
  ParseHexOctet_hexChar_fin ⟨o, ho⟩

theorem readContinuation_escape (j o : Nat) (ho : o < 256) (rest : List Char) :
    readContinuation (j + 1) (escapeOctet o ++ rest)
      = match readContinuation j rest with
        | none => none
        | some (bs, s) => some (o :: bs, s) := by
  rw [escapeOctet_eq o ho]
  simp [readContinuation, ParseHexOctet_hexChar o ho]

theorem Decode_loop_escape (fuel o : Nat) (ho : o < 256) (rest R : List Char) :
    Decode.loop (fuel + 1) (escapeOctet o ++ rest) R
      = if leadingOnes o = 0 then Decode.loop fuel rest (R ++ [Char.ofNat o])
        else if leadingOnes o = 1 ∨ leadingOnes o > 4 then .error .URIError
        else
          match readContinuation (leadingOnes o - 1) rest with
          | none => .error .URIError
          | some (more, rest3) =>
            match utf8CodePoint (o :: more) with
            | none => .error .URIError
            | some V => Decode.loop fuel rest3 (R ++ [Char.ofNat V]) := by
  rw [escapeOctet_eq o ho]
  simp [Decode.loop, ParseHexOctet_hexChar o ho]

theorem Decode_loop_plain (fuel : Nat) (c : Char) (hc : c ≠ '%') (rest R : List Char) :
    Decode.loop (fuel + 1) (c :: rest) R = Decode.loop fuel rest (R ++ [c]) := by
  simp [Decode.loop, hc]

theorem utf8CodePoint_two (cp : Nat) (h1 : 0x80 ≤ cp) (h2 : cp < 0x800) :
    utf8CodePoint [0xC0 + cp / 0x40, 0x80 + cp % 0x40] = some cp := by
  have hval : (0xC0 + cp / 0x40 - 0xC0) * 0x40 + (0x80 + cp % 0x40 - 0x80) = cp := by omega
  simp only [utf8CodePoint, isContinuation, hval]
  rw [if_pos]
  simp only [Bool.and_eq_true, decide_eq_true_eq]
  omega

theorem utf8CodePoint_three (cp : Nat) (h1 : 0x800 ≤ cp) (h2 : cp < 0x10000)
    (hs : ¬ (0xD800 ≤ cp ∧ cp ≤ 0xDFFF)) :
    utf8CodePoint [0xE0 + cp / 0x1000, 0x80 + cp / 0x40 % 0x40, 0x80 + cp % 0x40] = some cp := by
  have hval : (0xE0 + cp / 0x1000 - 0xE0) * 0x1000 + (0x80 + cp / 0x40 % 0x40 - 0x80) * 0x40
      + (0x80 + cp % 0x40 - 0x80) = cp := by omega
  simp only [utf8CodePoint, isContinuation, hval]
  rw [if_pos]
  simp only [Bool.and_eq_true, decide_eq_true_eq, Bool.not_eq_true', Bool.and_eq_false_iff,
    decide_eq_false_iff_not]
  omega

theorem utf8CodePoint_four (cp : Nat) (h1 : 0x10000 ≤ cp) (h2 : cp < 0x110000) :
    utf8CodePoint [0xF0 + cp / 0x40000, 0x80 + cp / 0x1000 % 0x40, 0x80 + cp / 0x40 % 0x40,
      0x80 + cp % 0x40] = some cp := by
  have hval : (0xF0 + cp / 0x40000 - 0xF0) * 0x40000 + (0x80 + cp / 0x1000 % 0x40 - 0x80) * 0x1000
      + (0x80 + cp / 0x40 % 0x40 - 0x80) * 0x40 + (0x80 + cp % 0x40 - 0x80) = cp := by omega
  simp only [utf8CodePoint, isContinuation, hval]
  rw [if_pos]
  simp only [Bool.and_eq_true, decide_eq_true_eq]
  omega

/-- One iteration of `Decode` consumes the escapes of one character and
appends that character. -/
theorem Decode_loop_escaped_char (fuel : Nat) (c : Char) (rest R : List Char) :
    Decode.loop (fuel + 1) ((utf8Octets c.toNat).flatMap escapeOctet ++ rest) R
      = Decode.loop fuel rest (R ++ [c]) := by
  have hv := char_toNat_lt c
  have hs := char_toNat_not_surrogate c
  have hlt := utf8Octets_lt c
  have hc : Char.ofNat c.toNat = c := Char.ofNat_toNat c
  unfold utf8Octets at hlt ⊢
  split_ifs at hlt ⊢ with h1 h2 h3
  · simp only [List.flatMap_cons, List.flatMap_nil, List.append_nil]
    rw [Decode_loop_escape _ _ (by omega)]
    simp [leadingOnes, h1, hc]
  · have hb0 := hlt _ (List.mem_cons_self _ _)
    have hb1 := hlt _ (List.mem_cons_of_mem _ (List.mem_cons_self _ _))
    simp only [List.flatMap_cons, List.flatMap_nil, List.append_nil, List.append_assoc]
    rw [Decode_loop_escape _ _ hb0]
    have hl : leadingOnes (0xC0 + c.toNat / 0x40) = 2 := by
      unfold leadingOnes
      split_ifs <;> omega
    rw [hl, readContinuation_escape 0 _ hb1]
    simp only [readContinuation, utf8CodePoint_two c.toNat (by omega) h2, hc]
    simp
  · have hb0 := hlt _ (List.mem_cons_self _ _)
    have hb1 := hlt _ (List.mem_cons_of_mem _ (List.mem_cons_self _ _))
    have hb2 := hlt _ (List.mem_cons_of_mem _ (List.mem_cons_of_mem _ (List.mem_cons_self _ _)))
    simp only [List.flatMap_cons, List.flatMap_nil, List.append_nil, List.append_assoc]
    rw [Decode_loop_escape _ _ hb0]
    have hl : leadingOnes (0xE0 + c.toNat / 0x1000) = 3 := by
      unfold leadingOnes
      split_ifs <;> omega
    rw [hl, readContinuation_escape 1 _ hb1, readContinuation_escape 0 _ hb2]
    simp only [readContinuation, utf8CodePoint_three c.toNat (by omega) h3 hs, hc]
    simp
  · have hb0 := hlt _ (List.mem_cons_self _ _)
    have hb1 := hlt _ (List.mem_cons_of_mem _ (List.mem_cons_self _ _))
    have hb2 := hlt _ (List.mem_cons_of_mem _ (List.mem_cons_of_mem _ (List.mem_cons_self _ _)))
    have hb3 := hlt _ (List.mem_cons_of_mem _ (List.mem_cons_of_mem _
      (List.mem_cons_of_mem _ (List.mem_cons_self _ _))))
    simp only [List.flatMap_cons, List.flatMap_nil, List.append_nil, List.append_assoc]
    rw [Decode_loop_escape _ _ hb0]
    have hl : leadingOnes (0xF0 + c.toNat / 0x40000) = 4 := by
      unfold leadingOnes
      split_ifs <;> omega
    rw [hl, readContinuation_escape 2 _ hb1, readContinuation_escape 1 _ hb2,
      readContinuation_escape 0 _ hb3]
    simp only [readContinuation, utf8CodePoint_four c.toNat (by omega) hv, hc]
    simp

theorem readContinuation_length (j : Nat) (s : List Char) (bs : List Nat) (s' : List Char)
    (h : readContinuation j s = some (bs, s')) : s'.length ≤ s.length := by
  induction j generalizing s bs s' with
  | zero =>
    simp only [readContinuation, Option.some.injEq, Prod.mk.injEq] at h
    rw [h.2]
  | succ j ih =>
    match s with
    | [] => simp [readContinuation] at h
    | [_] => simp [readContinuation] at h
    | [_, _] => simp [readContinuation] at h
    | c :: hi :: lo :: t =>
      by_cases hc : c = '%'
      · subst hc
        simp only [readContinuation] at h
        split at h
        · exact absurd h (by simp)
        · split at h
          · exact absurd h (by simp)
          · rename_i bs2 t2 hrec
            simp only [Option.some.injEq, Prod.mk.injEq] at h
            have := ih t bs2 t2 hrec
            rw [← h.2]
            simp only [List.length_cons]
            omega
      · simp [readContinuation, hc] at h

/-- The fuel `Decode` gives its loop is never used up: the loop stops only with
a result or with the `URIError` of the standard. -/
theorem Decode_loop_ne_outOfFuel (fuel : Nat) (s R : List Char) (h : s.length ≤ fuel) :
    Decode.loop fuel s R ≠ .error .outOfFuel := by
  induction fuel generalizing s R with
  | zero =>
    cases s with
    | nil => simp [Decode.loop]
    | cons C rest => simp at h
  | succ f ih =>
    cases s with
    | nil => simp [Decode.loop]
    | cons C rest =>
      simp only [List.length_cons] at h
      simp only [Decode.loop]
      split
      · split
        · rename_i hi lo rest2
          simp only [List.length_cons] at h
          split
          · simp
          · split
            · exact ih _ _ (by omega)
            · split
              · simp
              · split
                · simp
                · rename_i more rest3 hread
                  have := readContinuation_length _ _ _ _ hread
                  split
                  · simp
                  · exact ih _ _ (by omega)
        · simp
      · exact ih _ _ (by omega)

theorem Decode_ne_outOfFuel (s : List Char) : Decode s ≠ .error .outOfFuel :=
  Decode_loop_ne_outOfFuel s.length s [] (Nat.le_refl _)

theorem percent_not_mem_alwaysUnescaped : '%' ∉ alwaysUnescaped := by
  decide

theorem Decode_loop_nil (fuel : Nat) (R : List Char) :
    Decode.loop fuel [] R = .ok R := by
  cases fuel <;> rfl

theorem Decode_loop_encoded (unescapedSet : List Char) (hp : '%' ∉ unescapedSet)
    (U : List Char) (fuel : Nat) (R : List Char) (hfuel : U.length ≤ fuel) :
    Decode.loop fuel
        (U.flatMap fun C =>
          if unescapedSet.contains C then [C]
          else (utf8Octets C.toNat).flatMap escapeOctet) R
      = .ok (R ++ U) := by
  induction U generalizing fuel R with
  | nil => simp [Decode_loop_nil]
  | cons c cs ih =>
    obtain ⟨f, rfl⟩ : ∃ f, fuel = f + 1 := ⟨fuel - 1, by simp at hfuel; omega⟩
    have hf : cs.length ≤ f := by simp at hfuel; omega
    simp only [List.flatMap_cons]
    by_cases hc : unescapedSet.contains c = true
    · have hne : c ≠ '%' := fun h => hp (h ▸ (by simpa using hc))
      rw [if_pos hc, List.singleton_append, Decode_loop_plain f c hne, ih f (R ++ [c]) hf]
      simp
    · rw [if_neg hc, Decode_loop_escaped_char, ih f (R ++ [c]) hf]
      simp

theorem length_le_length_flatMap {α β : Type} (f : α → List β) (l : List α)
    (hf : ∀ a, f a ≠ []) : l.length ≤ (l.flatMap f).length := by
  induction l with
  | nil => simp
  | cons a as ih =>
    have : 1 ≤ (f a).length := by
      cases hfa : f a with
      | nil => exact absurd hfa (hf a)
      | cons _ _ => simp
    simp only [List.flatMap_cons, List.length_append, List.length_cons]
    omega

theorem utf8Octets_flatMap_ne_nil (cp : Nat) : (utf8Octets cp).flatMap escapeOctet ≠ [] := by
  unfold utf8Octets
  split_ifs <;> simp [escapeOctet]

theorem Decode_Encode (U : List Char) : Decode (Encode U []) = .ok U := by
  unfold Decode Encode
  rw [Encode_loop_eq]
  simp only [List.nil_append, List.append_nil]
  have h := Decode_loop_encoded alwaysUnescaped percent_not_mem_alwaysUnescaped U
    ((U.flatMap fun C =>
          if alwaysUnescaped.contains C then [C]
          else (utf8Octets C.toNat).flatMap escapeOctet).length) []
    (length_le_length_flatMap _ U (fun a => by
      by_cases ha : alwaysUnescaped.contains a = true
      · rw [if_pos ha]
        simp
      · rw [if_neg ha]
        exact utf8Octets_flatMap_ne_nil _))
  simpa using h

theorem decodeURIComponent_encodeURIComponent (U : String) :
    decodeURIComponent (encodeURIComponent U) = .ok U := by
  unfold decodeURIComponent encodeURIComponent
  show Except.map String.mk (Decode (Encode U.toList [])) = _
  rw [Decode_Encode]
  rfl

/-! ## The widget: attributes and `start` -/

theorem getAttribute_setAttribute_same (attrs : List (String × String)) (name value : String) :
    getAttribute (setAttribute attrs name value) name = some value := by
  induction attrs with
  | nil => simp [setAttribute, getAttribute]
  | cons a rest ih =>
    obtain ⟨k, v⟩ := a
    by_cases h : k = name
    · simp [setAttribute, getAttribute, h]
    · simp [setAttribute, getAttribute, h, ih]

theorem getAttribute_setAttribute_other (attrs : List (String × String))
    (name value other : String) (hne : other ≠ name) :
    getAttribute (setAttribute attrs name value) other = getAttribute attrs other := by
  induction attrs with
  | nil => simp [setAttribute, getAttribute, hne.symm]
  | cons a rest ih =>
    obtain ⟨k, v⟩ := a
    by_cases h : k = name
    · have hk : k ≠ other := fun e => hne (e ▸ h)
      simp [setAttribute, getAttribute, h, hne.symm]
    · by_cases h2 : k = other
      · subst h2
        simp [setAttribute, getAttribute, h]
      · simp [setAttribute, getAttribute, h, h2, ih]

theorem setAttribute_setAttribute (attrs : List (String × String)) (name previous value : String) :
    setAttribute (setAttribute attrs name previous) name value = setAttribute attrs name value := by
  induction attrs with
  | nil => simp [setAttribute]
  | cons a rest ih =>
    obtain ⟨k, v⟩ := a
    by_cases h : k = name
    · simp [setAttribute, h]
    · simp [setAttribute, h, ih]

theorem filter_setAttribute (attrs : List (String × String)) (name value : String) :
    (setAttribute attrs name value).filter (fun a => a.1 != name)
      = attrs.filter (fun a => a.1 != name) := by
  induction attrs with
  | nil => simp [setAttribute]
  | cons a rest ih =>
    obtain ⟨k, v⟩ := a
    by_cases h : k = name
    · simp [setAttribute, h]
    · simp [setAttribute, h, ih]

theorem start_widget {ε σ α ρ : Type} (_super : Widget ε σ → α → Widget ε σ × ρ)
    (location_href : String) (this : Widget ε σ) (arguments : α) :
    (WebsiteLinksMenu.start _super location_href this arguments).widget
      = (_super { this with
            el := this.el.attr "href" ("/r?u=" ++ encodeURIComponent location_href) }
          arguments).1 := rfl

theorem start_el {ε σ α ρ : Type} (_super : Widget ε σ → α → Widget ε σ × ρ)
    (h : PreservesElement _super) (location_href : String) (this : Widget ε σ) (arguments : α) :
    (WebsiteLinksMenu.start _super location_href this arguments).widget.el
      = this.el.attr "href" ("/r?u=" ++ encodeURIComponent location_href) := by
  rw [start_widget, h]

theorem start_href {ε σ α ρ : Type} (_super : Widget ε σ → α → Widget ε σ × ρ)
    (h : PreservesElement _super) (location_href : String) (this : Widget ε σ) (arguments : α) :
    getAttribute (WebsiteLinksMenu.start _super location_href this arguments).widget.el.attributes
        "href"
      = some ("/r?u=" ++ encodeURIComponent location_href) := by
  rw [start_el _super h]
  exact getAttribute_setAttribute_same _ _ _

/-- C1: for every current location `U` (and every base `start` that leaves
the root element alone), after `WebsiteLinksMenu.start` the attribute `href` of
the root element is `/r?u=` followed by the percent-encoding of `U`, in which
every character other than `A-Z a-z 0-9 - _ . ! ~ * ' ( )` is replaced by the
`%XX` escapes of its UTF-8 bytes; and on the UTF-16 code units of `U` the
code-unit `Encode` of the standard returns the code units of that encoding,
without `URIError`. -/
theorem start_sets_href_to_percent_encoding {ε σ α ρ : Type}
    (_super : Widget ε σ → α → Widget ε σ × ρ) (h : PreservesElement _super)
    (U : String) (this : Widget ε σ) (arguments : α) :
    getAttribute (WebsiteLinksMenu.start _super U this arguments).widget.el.attributes "href"
        = some ("/r?u=" ++ percentEncoding U)
      ∧ EncodeUnits (codeUnits U.toList) [] = .ok (codeUnits (percentEncoding U).toList) := by
  refine ⟨?_, ?_⟩
  · rw [start_href _super h, encodeURIComponent_eq_percentEncoding]
  · rw [EncodeUnits_codeUnits, ← encodeURIComponent_eq_percentEncoding]
    rfl

theorem start_sets_href_to_percent_encoding_witness :
    PreservesElement (fun (w : Widget Unit Unit) (_ : Unit) => (w, ()))
      ∧ getAttribute
          (WebsiteLinksMenu.start (fun (w : Widget Unit Unit) (_ : Unit) => (w, ()))
            "https://example.com/page?a=1&b=2"
            { el := { attributes := [("id", "o_website_links_share_page"), ("href", "#")],
                      content := () },
              fields := () } ()).widget.el.attributes "href"
        = some ("/r?u=" ++ percentEncoding "https://example.com/page?a=1&b=2")
      ∧ "/r?u=" ++ percentEncoding "https://example.com/page?a=1&b=2"
        = "/r?u=https%3A%2F%2Fexample.com%2Fpage%3Fa%3D1%26b%3D2" :=
  ⟨fun _ _ => rfl,
    (start_sets_href_to_percent_encoding _ (fun _ _ => rfl) _ _ _).1,
    by decide⟩

/-- C3: `decodeURIComponent` applied to `encodeURIComponent(U)` returns `U`
for every string `U`; and for every base `start` that leaves the root element
alone, the `href` that `WebsiteLinksMenu.start` sets begins with `/r?u=` and
decoding what follows those five characters returns the current location. -/
theorem decode_recovers_location :
    (∀ U : String, decodeURIComponent (encodeURIComponent U) = .ok U)
    ∧ ∀ (ε σ α ρ : Type) (_super : Widget ε σ → α → Widget ε σ × ρ),
        PreservesElement _super →
        ∀ (U : String) (this : Widget ε σ) (arguments : α),
          ∃ target : String,
            getAttribute (WebsiteLinksMenu.start _super U this arguments).widget.el.attributes
                "href" = some target
            ∧ target.toList.take 5 = "/r?u=".toList
            ∧ decodeURIComponent (String.mk (target.toList.drop 5)) = .ok U := by
  refine ⟨decodeURIComponent_encodeURIComponent, ?_⟩
  intro ε σ α ρ _super h U this arguments
  refine ⟨"/r?u=" ++ encodeURIComponent U, start_href _super h U this arguments, ?_, ?_⟩
  · simp [String.toList]
  · have hd : ("/r?u=" ++ encodeURIComponent U).toList.drop 5 = (encodeURIComponent U).toList := by
      simp [String.toList]
    rw [hd]
    exact decodeURIComponent_encodeURIComponent U

theorem decode_recovers_location_witness :
    PreservesElement (fun (w : Widget Unit Unit) (_ : Unit) => (w, ()))
      ∧ decodeURIComponent (encodeURIComponent "https://example.com/page?a=1&b=2")
          = .ok "https://example.com/page?a=1&b=2"
      ∧ ∃ target : String,
          getAttribute
              (WebsiteLinksMenu.start (fun (w : Widget Unit Unit) (_ : Unit) => (w, ()))
                "https://example.com/page?a=1&b=2"
                { el := { attributes := [("href", "#")], content := () }, fields := () }
                ()).widget.el.attributes "href" = some target
            ∧ target.toList.take 5 = "/r?u=".toList
            ∧ decodeURIComponent (String.mk (target.toList.drop 5))
                = .ok "https://example.com/page?a=1&b=2" :=
  ⟨fun _ _ => rfl,
    decode_recovers_location.1 _,
    decode_recovers_location.2 Unit Unit Unit Unit _ (fun _ _ => rfl) _ _ _⟩

/-- C5: for every base `start` that leaves the root element alone, every
element state and every current location, the root element after
`WebsiteLinksMenu.start` is the element before with `href` overwritten by the
computed target: its content and every other attribute are as before, and the
result is the same whatever `href` held before. -/
theorem start_changes_only_href {ε σ α ρ : Type}
    (_super : Widget ε σ → α → Widget ε σ × ρ) (h : PreservesElement _super)
    (U : String) (this : Widget ε σ) (arguments : α) :
    (WebsiteLinksMenu.start _super U this arguments).widget.el
        = this.el.attr "href" ("/r?u=" ++ encodeURIComponent U)
    ∧ getAttribute (WebsiteLinksMenu.start _super U this arguments).widget.el.attributes "href"
        = some ("/r?u=" ++ encodeURIComponent U)
    ∧ (∀ name : String, name ≠ "href" →
        getAttribute (WebsiteLinksMenu.start _super U this arguments).widget.el.attributes name
          = getAttribute this.el.attributes name)
    ∧ (WebsiteLinksMenu.start _super U this arguments).widget.el.attributes.filter
          (fun a => a.1 != "href")
        = this.el.attributes.filter (fun a => a.1 != "href")
    ∧ (WebsiteLinksMenu.start _super U this arguments).widget.el.content = this.el.content
    ∧ (∀ previous : String,
        (WebsiteLinksMenu.start _super U
            { this with el := this.el.attr "href" previous } arguments).widget.el
          = (WebsiteLinksMenu.start _super U this arguments).widget.el) := by
  have hel := start_el _super h U this arguments
  refine ⟨hel, start_href _super h U this arguments, fun name hne => ?_, ?_, ?_, fun previous => ?_⟩
  · rw [hel]
    exact getAttribute_setAttribute_other _ _ _ _ hne
  · rw [hel]
    exact filter_setAttribute _ _ _
  · rw [hel]
    rfl
  · rw [hel, start_el _super h]
    simp [Element.attr, setAttribute_setAttribute]

theorem start_changes_only_href_witness :
    PreservesElement (fun (w : Widget Unit Unit) (_ : Unit) => (w, ()))
      ∧ (WebsiteLinksMenu.start (fun (w : Widget Unit Unit) (_ : Unit) => (w, ()))
            "https://example.com/page?a=1&b=2"
            { el := { attributes := [("id", "o_website_links_share_page"), ("href", "#"),
                                     ("class", "dropdown-item")],
                      content := () },
              fields := () } ()).widget.el.attributes
          = [("id", "o_website_links_share_page"),
             ("href", "/r?u=https%3A%2F%2Fexample.com%2Fpage%3Fa%3D1%26b%3D2"),
             ("class", "dropdown-item")] :=
  ⟨fun _ _ => rfl,
    (congrArg Element.attributes
      (start_changes_only_href (fun (w : Widget Unit Unit) (_ : Unit) => (w, ()))
        (fun _ _ => rfl) "https://example.com/page?a=1&b=2"
        { el := { attributes := [("id", "o_website_links_share_page"), ("href", "#"),
                                 ("class", "dropdown-item")],
                  content := () },
          fields := () } ()).1).trans (by decide)⟩

/-- C6: `WebsiteLinksMenu.start` calls the base `start` exactly once, on the
receiver as it is once `href` has been set (all its other fields untouched) and
with the arguments it was given, and returns what the base `start` returns;
the widget after `start` is the widget as the base `start` leaves it. -/
theorem start_extends_base_start {ε σ α ρ : Type}
    (_super : Widget ε σ → α → Widget ε σ × ρ)
    (U : String) (this : Widget ε σ) (arguments : α) :
    (WebsiteLinksMenu.start _super U this arguments).superCalls
        = [({ el := this.el.attr "href" ("/r?u=" ++ encodeURIComponent U),
              fields := this.fields }, arguments)]
    ∧ (WebsiteLinksMenu.start _super U this arguments).superCalls.length = 1
    ∧ (WebsiteLinksMenu.start _super U this arguments).superCalls.map
          (fun call => getAttribute call.1.el.attributes "href")
        = [some ("/r?u=" ++ encodeURIComponent U)]
    ∧ (WebsiteLinksMenu.start _super U this arguments).returned
        = (_super { el := this.el.attr "href" ("/r?u=" ++ encodeURIComponent U),
                    fields := this.fields } arguments).2
    ∧ (WebsiteLinksMenu.start _super U this arguments).widget
        = (_super { el := this.el.attr "href" ("/r?u=" ++ encodeURIComponent U),
                    fields := this.fields } arguments).1 := by
  refine ⟨rfl, rfl, ?_, rfl, rfl⟩
  simp [WebsiteLinksMenu.start, Element.attr, getAttribute_setAttribute_same]

/-! ## The target as a single query parameter -/

theorem hexChar_mem_alwaysUnescaped : ∀ n : Fin 16, hexChar n.val ∈ alwaysUnescaped := by
  decide

theorem mem_escapeOctet (o : Nat) (ho : o < 256) (c : Char) (hc : c ∈ escapeOctet o) :
    c ∈ alwaysUnescaped ∨ c = '%' := by
  rw [escapeOctet_eq o ho] at hc
  simp only [List.mem_cons, List.mem_singleton, List.not_mem_nil, or_false] at hc
  rcases hc with rfl | rfl | rfl
  · exact Or.inr rfl
  · exact Or.inl (hexChar_mem_alwaysUnescaped ⟨o / 16, by omega⟩)
  · exact Or.inl (hexChar_mem_alwaysUnescaped ⟨o % 16, by omega⟩)

theorem mem_Encode (U : List Char) (c : Char) (hc : c ∈ Encode U []) :
    c ∈ alwaysUnescaped ∨ c = '%' := by
  unfold Encode at hc
  rw [Encode_loop_eq] at hc
  simp only [List.nil_append, List.append_nil, List.mem_flatMap] at hc
  obtain ⟨x, _, hx⟩ := hc
  by_cases hu : alwaysUnescaped.contains x = true
  · rw [if_pos hu] at hx
    simp only [List.mem_singleton] at hx
    subst hx
    exact Or.inl (by simpa using hu)
  · rw [if_neg hu, List.mem_flatMap] at hx
    obtain ⟨o, ho, hco⟩ := hx
    exact mem_escapeOctet o (utf8Octets_lt x o ho) c hco

theorem delimiters_escaped : ∀ d ∈ delimiters, d ∉ alwaysUnescaped ∧ d ≠ '%' := by
  decide

theorem not_mem_delimiters_of_mem_encodeURIComponent (U : String) (c : Char)
    (hc : c ∈ (encodeURIComponent U).toList) : c ∉ delimiters := by
  intro hd
  have h := mem_Encode U.toList c hc
  have := delimiters_escaped c hd
  rcases h with h | h
  · exact this.1 h
  · exact this.2 h

theorem splitOn_of_not_mem (sep : Char) (l : List Char) (h : sep ∉ l) :
    splitOn sep l = [l] := by
  induction l with
  | nil => rfl
  | cons c rest ih =>
    have hc : c ≠ sep := fun e => h (e ▸ List.mem_cons_self _ _)
    have hr : sep ∉ rest := fun e => h (List.mem_cons_of_mem _ e)
    simp [splitOn, hc, ih hr]

/-- C7: for every current location `U` (and every base `start` that leaves
the root element alone), the `href` set by `WebsiteLinksMenu.start` is `/r?u=`
followed by a value that is the percent-encoding of `U`
(`encodeURIComponent(U)`), decodes back to `U`, and contains none of `&`, `=`,
`?`, `#`, `/`, `+` and space; hence the target has exactly one `?` and exactly
one query parameter, named `u`, whose value is that encoding and whose decoded
value is `U`. -/
theorem target_has_single_query_parameter {ε σ α ρ : Type}
    (_super : Widget ε σ → α → Widget ε σ × ρ) (h : PreservesElement _super)
    (U : String) (this : Widget ε σ) (arguments : α) :
    ∃ value : String,
      getAttribute (WebsiteLinksMenu.start _super U this arguments).widget.el.attributes "href"
          = some ("/r?u=" ++ value)
      ∧ value = encodeURIComponent U
      ∧ value = percentEncoding U
      ∧ decodeURIComponent value = .ok U
      ∧ (∀ c ∈ value.toList, c ∉ delimiters)
      ∧ ("/r?u=" ++ value).toList.count '?' = 1
      ∧ queryParameters ("/r?u=" ++ value) = [("u", value)]
      ∧ (queryParameters ("/r?u=" ++ value)).map (fun p => (p.1, decodeURIComponent p.2))
          = [("u", .ok U)] := by
  have hmem := not_mem_delimiters_of_mem_encodeURIComponent U
  have hquery : queryParameters ("/r?u=" ++ encodeURIComponent U)
      = [("u", encodeURIComponent U)] := ?_
  refine ⟨encodeURIComponent U, start_href _super h U this arguments, rfl,
    encodeURIComponent_eq_percentEncoding U, decodeURIComponent_encodeURIComponent U, hmem, ?_,
    hquery, ?_⟩
  · have hq : '?' ∉ (encodeURIComponent U).toList := fun hc =>
      hmem '?' hc (by decide)
    have hl : ("/r?u=" ++ encodeURIComponent U).toList
        = ['/', 'r', '?', 'u', '='] ++ (encodeURIComponent U).toList := by
      simp [String.toList]
    rw [hl, List.count_append, List.count_eq_zero_of_not_mem hq]
    decide
  · rw [hquery]
    simp [decodeURIComponent_encodeURIComponent]
  · have hamp : '&' ∉ 'u' :: '=' :: (encodeURIComponent U).toList := by
      intro hc
      simp only [List.mem_cons] at hc
      rcases hc with hc | hc | hc
      · exact absurd hc (by decide)
      · exact absurd hc (by decide)
      · exact hmem '&' hc (by decide)
    have hhash : ∀ c ∈ 'u' :: '=' :: (encodeURIComponent U).toList, (c != '#') = true := by
      intro c hc
      simp only [List.mem_cons] at hc
      rcases hc with rfl | rfl | hc
      · decide
      · decide
      · simp only [bne_iff_ne, ne_eq]
        rintro rfl
        exact hmem '#' hc (by decide)
    have hl : ("/r?u=" ++ encodeURIComponent U).toList
        = ['/', 'r', '?', 'u', '='] ++ (encodeURIComponent U).toList := by
      simp [String.toList]
    have hquery : queryOf ("/r?u=" ++ encodeURIComponent U).toList
        = 'u' :: '=' :: (encodeURIComponent U).toList := by
      rw [hl]
      unfold queryOf
      have hd : (List.dropWhile (fun c => c != '?')
          (['/', 'r', '?', 'u', '='] ++ (encodeURIComponent U).toList))
          = '?' :: 'u' :: '=' :: (encodeURIComponent U).toList := by
        simp [List.dropWhile]
      rw [hd, List.drop_one, List.tail_cons]
      exact List.takeWhile_eq_self_iff.mpr hhash
    unfold queryParameters
    rw [hquery, splitOn_of_not_mem '&' _ hamp]
    simp [List.takeWhile, List.dropWhile]

theorem target_has_single_query_parameter_witness :
    PreservesElement (fun (w : Widget Unit Unit) (_ : Unit) => (w, ()))
      ∧ encodeURIComponent "https://example.com/page?a=1&b=2#top"
          = "https%3A%2F%2Fexample.com%2Fpage%3Fa%3D1%26b%3D2%23top"
      ∧ ∃ value : String,
          getAttribute
              (WebsiteLinksMenu.start (fun (w : Widget Unit Unit) (_ : Unit) => (w, ()))
                "https://example.com/page?a=1&b=2#top"
                { el := { attributes := [("href", "#")], content := () }, fields := () }
                ()).widget.el.attributes "href" = some ("/r?u=" ++ value)
            ∧ value = encodeURIComponent "https://example.com/page?a=1&b=2#top"
            ∧ value = percentEncoding "https://example.com/page?a=1&b=2#top"
            ∧ decodeURIComponent value = .ok "https://example.com/page?a=1&b=2#top"
            ∧ (∀ c ∈ value.toList, c ∉ delimiters)
            ∧ ("/r?u=" ++ value).toList.count '?' = 1
            ∧ queryParameters ("/r?u=" ++ value) = [("u", value)]
            ∧ (queryParameters ("/r?u=" ++ value)).map (fun p => (p.1, decodeURIComponent p.2))
                = [("u", .ok "https://example.com/page?a=1&b=2#top")] :=
  ⟨fun _ _ => rfl, by decide,
    target_has_single_query_parameter _ (fun _ _ => rfl) _ _ _⟩

end Flectra
